import Mathlib

set_option maxRecDepth 100000

/-
Verification of the coincidence-generation core of the PetProject8b repository.

The embedded code lives in tools/generate_coincidences.py and
tools/filter_rotating.py.  Numbers that the Python code handles as IEEE
doubles are modelled as rationals (ℚ); the numpy primitives arctan2 and pi
are irrational-valued library functions external to the repository, so they
enter the embedding as parameters (a function argument and a rational
argument).  Every theorem below is universally quantified over them, hence
in particular holds for the true arctan2 and π.  numpy scalar reductions
(`.max()` / `.min()`) raise a ValueError on an empty array; they are
modelled as Option-valued functions returning none on the empty list, and
pipelines that would raise propagate the none.
-/

/-- One row of the Singles table: PostPosition_X/Y/Z, TotalEnergyDeposit,
GlobalTime (generate_coincidences.py lines 70-74). -/
structure Single where
  x : ℚ
  y : ℚ
  z : ℚ
  energy : ℚ
  time : ℚ
deriving DecidableEq

instance : Inhabited Single := ⟨⟨0, 0, 0, 0, 0⟩⟩

/-- numpy `arr.max()`: none on an empty array (ValueError), otherwise the
maximum entry. -/
def npMax : List ℚ → Option ℚ
  | [] => none
  | q :: r =>
    match npMax r with
    | none => some q
    | some m => some (max q m)

/-- numpy `arr.min()`: none on an empty array (ValueError), otherwise the
minimum entry. -/
def npMin : List ℚ → Option ℚ
  | [] => none
  | q :: r =>
    match npMin r with
    | none => some q
    | some m => some (min q m)

/-- The time-window adjustment of generate_coincidences.py lines 100-108:
the nanosecond window parameter is rescaled to the data's time unit, the
unit being guessed from the maximum raw timestamp with thresholds
1e12, 1e6, 1e3 (branches: picoseconds, nanoseconds, microseconds,
seconds). -/
def adjustWindow (tmax timeWindowNs : ℚ) : ℚ :=
  if tmax > 1000000000000 then timeWindowNs * 1000
  else if tmax > 1000000 then timeWindowNs
  else if tmax > 1000 then timeWindowNs * (1 / 1000)
  else timeWindowNs * (1 / 1000000000)

/-- Modelled from the spec: the window-unit heuristic that claim C1 says the
matcher uses, namely the exact mirror of the §4.1 ingestion heuristic
(thresholds 1e12 and 1e9; picoseconds / nanoseconds / seconds) applied to
the nanosecond window parameter.  Kept separate so it can be compared with
`adjustWindow`, which is the heuristic the code actually implements. -/
def mirroredWindowHeuristic (tmax timeWindowNs : ℚ) : ℚ :=
  if tmax > 1000000000000 then timeWindowNs * 1000
  else if tmax > 1000000000 then timeWindowNs
  else timeWindowNs * (1 / 1000000000)

/-- numpy `np.radians(d)` = d·π/180 (generate_coincidences.py line 110). -/
def radians (pi d : ℚ) : ℚ := d * (pi / 180)

/-- Shortest-arc angular separation (generate_coincidences.py lines
135-137): `angle_diff = abs(angles[i] - angles[j])`, wrapped to
`2π - angle_diff` when it exceeds π. -/
def wrapDiff (pi ai aj : ℚ) : ℚ :=
  let d := |ai - aj|
  if d > pi then 2 * pi - d else d

/-- `used[i] = used[j] = True` (generate_coincidences.py line 149); the
boolean numpy array is modelled as a predicate on indices. -/
def markUsed (used : ℕ → Bool) (i j : ℕ) : ℕ → Bool :=
  fun k => if k = i ∨ k = j then true else used k

/-- The inner `while` loop of generate_coincidences.py lines 132-152 (full
ring): starting at index j, walk forward while `j < n_singles` and inside
the time window; return the first index that is unused and whose wrapped
angular separation from index i exceeds the minimum, or none if the window
closes or the array ends first.  The guard `j < n_singles` is encoded
structurally: `remaining` counts the indices left, i.e. `n_singles - j`,
so `remaining = 0` is exactly `j ≥ n_singles`. -/
def scanJ (ts angs : List ℚ) (timeWindow minAngleRad pi : ℚ)
    (used : ℕ → Bool) (i : ℕ) : ℕ → ℕ → Option ℕ
  | 0, _ => none
  | remaining + 1, j =>
    if ts.getD j 0 - ts.getD i 0 < timeWindow then
      if used j = false ∧ wrapDiff pi (angs.getD i 0) (angs.getD j 0) > minAngleRad then
        some j
      else scanJ ts angs timeWindow minAngleRad pi used i remaining (j + 1)
    else none

/-- The outer `for i in range(n_singles)` loop of generate_coincidences.py
lines 129-152: skip used events; otherwise scan forward for a partner;
on success emit the index pair, mark both indices used, and continue with
the next i.  As in `scanJ`, `remaining = n_singles - i` encodes the loop
bound; note that the inner scan starting at `j = i + 1` then has exactly
`remaining - 1 = n_singles - (i+1)` indices left. -/
def matchFrom (ts angs : List ℚ) (timeWindow minAngleRad pi : ℚ) :
    ℕ → ℕ → (ℕ → Bool) → List (ℕ × ℕ)
  | 0, _, _ => []
  | remaining + 1, i, used =>
    if used i then matchFrom ts angs timeWindow minAngleRad pi remaining (i + 1) used
    else
      match scanJ ts angs timeWindow minAngleRad pi used i remaining (i + 1) with
      | some j =>
          (i, j) :: matchFrom ts angs timeWindow minAngleRad pi remaining (i + 1) (markUsed used i j)
      | none => matchFrom ts angs timeWindow minAngleRad pi remaining (i + 1) used

/-- Full-ring matcher over the (already sorted) parallel arrays of times and
angles; the loop bound n_singles equals the array length on well-formed
input (generate_coincidences.py line 76). -/
def matchPairs (ts angs : List ℚ) (timeWindow minAngleRad pi : ℚ) : List (ℕ × ℕ) :=
  matchFrom ts angs timeWindow minAngleRad pi ts.length 0 (fun _ => false)

/-- Order on events by timestamp, used to model `np.argsort(time)` followed
by the reindexing of all parallel arrays (generate_coincidences.py lines
113-115). -/
def timeLE (e f : Single) : Prop := e.time ≤ f.time

instance : DecidableRel timeLE := fun e f => inferInstanceAs (Decidable (e.time ≤ f.time))

instance : IsTotal Single timeLE := ⟨fun e f => le_total e.time f.time⟩

instance : IsTrans Single timeLE := ⟨fun _ _ _ h h' => le_trans h h'⟩

/-- The time sort of generate_coincidences.py lines 113-115, acting on the
stream of event records (reindexing every parallel array by argsort(time)
is the same as permuting the record list into time order). -/
def sortByTime (l : List Single) : List Single := l.insertionSort timeLE

/-- Index pairs emitted by the full-ring matcher
(generate_coincidences.py lines 97-152) on a stream of events, for a given
arctan2/π, window parameter (ns) and minimum angle (deg).  Indices refer to
positions in the time-sorted stream; the code's output row for a pair (i,j)
is built from the fields of the i-th and j-th sorted events.  The angle
array is `np.arctan2(y, x)` computed per event (line 98) and carried
through the sort. -/
def fullRingPairs (arctan2 : ℚ → ℚ → ℚ) (pi : ℚ) (events : List Single)
    (timeWindowNs minAngleDeg : ℚ) : List (ℕ × ℕ) :=
  match npMax (events.map Single.time) with
  | none => []
  | some tmax =>
    let sorted := sortByTime events
    let ts := sorted.map Single.time
    let angs := sorted.map (fun e => arctan2 e.y e.x)
    matchPairs ts angs (adjustWindow tmax timeWindowNs) (radians pi minAngleDeg) pi

/-- The full-ring generator including the fallible `time.max()` step
(generate_coincidences.py line 101): on an empty stream numpy raises, so
the run returns none; otherwise it returns the emitted index pairs. -/
def fullRingRun (arctan2 : ℚ → ℚ → ℚ) (pi : ℚ) (events : List Single)
    (timeWindowNs minAngleDeg : ℚ) : Option (List (ℕ × ℕ)) :=
  match npMax (events.map Single.time) with
  | none => none
  | some _ => some (fullRingPairs arctan2 pi events timeWindowNs minAngleDeg)

/-- Flattened list of all member indices of a pair list, in emission
order. -/
def pairIdx : List (ℕ × ℕ) → List ℕ
  | [] => []
  | (p, q) :: r => p :: q :: pairIdx r

/-- numpy `.astype(int)` on a float: truncation toward zero. -/
def npTruncInt (q : ℚ) : ℤ :=
  if 0 ≤ q then ⌊q⌋ else ⌈q⌉

/-- filter_rotating.py lines 73-78: `angle = arctan2(y, x) + π`, then
`module_id = int(angle / (2π) * n_modules) % n_modules`.  Python's `%` on
integers is the euclidean mod for a positive modulus, i.e. `Int.emod`. -/
def get_module_id (arctan2 : ℚ → ℚ → ℚ) (pi : ℚ) (x y : ℚ) (nModules : ℕ) : ℤ :=
  npTruncInt ((arctan2 y x + pi) / (2 * pi) * nModules) % nModules

/-- The rotating acceptance gate, filter_rotating.py lines 81-115: compute
each event's module id; subtract the stream minimum from its time and
rescale to seconds when the maximum raw timestamp exceeds 1e12 (ps) or
1e9 (ns); the active pair at that time is `active_a = int(speed·t_sec /
degrees_per_module) % (n_modules//2)` and its antipode `active_a +
n_modules//2`; keep the event iff its module id is one of the two.  The
code returns a boolean mask applied by the caller
(generate_coincidences.py lines 84-92); the model returns the retained
sub-stream directly.  On an empty stream `time.min()` raises, hence
none. -/
def filter_singles_rotating (arctan2 : ℚ → ℚ → ℚ) (pi : ℚ) (events : List Single)
    (rotationSpeedDegPerSec : ℚ) (nModules : ℕ) : Option (List Single) :=
  match npMin (events.map Single.time) with
  | none => none
  | some tmin =>
  match npMax (events.map Single.time) with
  | none => none
  | some tmax =>
  some (events.filter fun e =>
        let timeSec : ℚ :=
          (e.time - tmin) /
            (if tmax > 1000000000000 then 1000000000000
             else if tmax > 1000000000 then 1000000000 else 1)
        let rotationAngle := rotationSpeedDegPerSec * timeSec
        let degreesPerModule : ℚ := 360 / nModules
        let activeA : ℤ := npTruncInt (rotationAngle / degreesPerModule) % (nModules / 2)
        let activeB : ℤ := activeA + (nModules / 2)
        (get_module_id arctan2 pi e.x e.y nModules == activeA) ||
          (get_module_id arctan2 pi e.x e.y nModules == activeB))

/-- Order on tagged events by timestamp (tags are positions in the original
stream), modelling the per-side `argsort(time)` of
generate_coincidences.py lines 210-211. -/
def tagTimeLE (p q : ℕ × Single) : Prop := p.2.time ≤ q.2.time

instance : DecidableRel tagTimeLE := fun p q => inferInstanceAs (Decidable (p.2.time ≤ q.2.time))

instance : IsTotal (ℕ × Single) tagTimeLE := ⟨fun p q => le_total p.2.time q.2.time⟩

instance : IsTrans (ℕ × Single) tagTimeLE := ⟨fun _ _ _ h h' => le_trans h h'⟩

/-- Time sort of a tagged side stream. -/
def sortTagged (l : List (ℕ × Single)) : List (ℕ × Single) := l.insertionSort tagTimeLE

/-- The pointer advance of generate_coincidences.py line 223:
`while j < len(idx2) - 1 and time[idx2[j+1]] < time[i]: j += 1`.
The guard `j < len(idx2) - 1` is encoded structurally: `remaining` is
`(len(idx2) - 1) - j`, so `remaining = 0` is exactly `j ≥ len(idx2) - 1`. -/
def advancePtr (s2 : List (ℕ × Single)) (t : ℚ) : ℕ → ℕ → ℕ
  | 0, j => j
  | remaining + 1, j =>
    if (s2.getD (j + 1) default).2.time < t then advancePtr s2 t remaining (j + 1)
    else j

/-- The pairing loop of generate_coincidences.py lines 219-236: walk the
x<0 side in time order; break when the x>0 pointer is exhausted; advance
the pointer while the next x>0 event is still earlier than the current
x<0 event; pair with the pointed x>0 event; then advance the pointer by
one.  No time window and no angular filter are applied. -/
def staticPairLoop (s2 : List (ℕ × Single)) :
    List (ℕ × Single) → ℕ → List ((ℕ × Single) × (ℕ × Single))
  | [], _ => []
  | e :: rest, j =>
    if j ≥ s2.length then []
    else
      (e, s2.getD (advancePtr s2 e.2.time (s2.length - 1 - j) j) default) ::
        staticPairLoop s2 rest (advancePtr s2 e.2.time (s2.length - 1 - j) j + 1)

/-- The static two-module matcher `generate_coincidences_partial_ring`
(generate_coincidences.py lines 185-257): events are tagged with their
stream position, split by the sign of x (lines 204-209; x = 0 belongs to
neither side), each side is time-sorted, and the sides are merged by
`staticPairLoop`.  Output pairs carry the tagged x<0 event first and the
tagged x>0 event second, exactly the data the code writes per row. -/
def generate_coincidences_static_ring (events : List Single) :
    List ((ℕ × Single) × (ℕ × Single)) :=
  let tagged := events.enum
  let idx1 := sortTagged (tagged.filter fun p => decide (p.2.x < 0))
  let idx2 := sortTagged (tagged.filter fun p => decide (p.2.x > 0))
  staticPairLoop idx2 idx1 0

/-
Raw-array model of `generate_coincidences`.  The record-level model above
assumes the five parallel arrays have equal length (one record per event);
claim C9 is about what happens when they do not, so the pipeline is
repeated here directly on the five separate arrays, with every numpy
operation that can raise (or silently truncate) modelled explicitly:
elementwise arctan2 requires equal lengths (numpy broadcast error
otherwise; the size-1 broadcast special case is not modelled), fancy
indexing `a[sort_idx]` errors when an index is out of range and silently
yields the shorter reindexed array when `a` is longer than `sort_idx`,
and scalar element access errors out of range.  none = the run raises.
-/

/-- One output row of the Coincidences table (generate_coincidences.py
lines 120-148); the remaining columns (eventID, comptonPhantom, ...) are
sequence numbers and constant zeros appended afterwards (lines
164-173). -/
structure RawPair where
  x1 : ℚ
  y1 : ℚ
  z1 : ℚ
  x2 : ℚ
  y2 : ℚ
  z2 : ℚ
  t1 : ℚ
  t2 : ℚ
  e1 : ℚ
  e2 : ℚ
deriving DecidableEq

/-- `np.arctan2(y, x)` elementwise (generate_coincidences.py line 98);
mismatched lengths raise a broadcast error. -/
def npArctan2 (arctan2 : ℚ → ℚ → ℚ) (ys xs : List ℚ) : Option (List ℚ) :=
  if ys.length = xs.length then some (List.zipWith arctan2 ys xs) else none

/-- numpy fancy indexing `a[idx]`: errors if any index is out of range,
otherwise the reindexed array (of the length of idx). -/
def npTake (a : List ℚ) (idx : List ℕ) : Option (List ℚ) :=
  if idx.all fun i => decide (i < a.length) then some (idx.map fun i => a.getD i 0)
  else none

/-- `np.argsort(time)` (generate_coincidences.py line 113): a permutation
of the positions of `t` listed in order of ascending time. -/
def argsortIdx (t : List ℚ) : List ℕ :=
  @List.insertionSort ℕ (fun i j => t.getD i 0 ≤ t.getD j 0)
    (fun i j => inferInstanceAs (Decidable (t.getD i 0 ≤ t.getD j 0)))
    (List.range t.length)

/-- Inner scan of the raw matcher: as `scanJ`, but every array element
access is bounds-checked (an out-of-range access raises IndexError in the
code).  Result: none = error, some none = scan exhausted, some (some j) =
partner found. -/
def rawScan (ts angs : List ℚ) (timeWindow minAngleRad pi : ℚ)
    (used : ℕ → Bool) (i : ℕ) : ℕ → ℕ → Option (Option ℕ)
  | 0, _ => some none
  | remaining + 1, j =>
    match ts.get? j, ts.get? i with
    | some tj, some ti =>
      if tj - ti < timeWindow then
        if used j then rawScan ts angs timeWindow minAngleRad pi used i remaining (j + 1)
        else
          match angs.get? i, angs.get? j with
          | some ai, some aj =>
            if wrapDiff pi ai aj > minAngleRad then some (some j)
            else rawScan ts angs timeWindow minAngleRad pi used i remaining (j + 1)
          | _, _ => none
      else some none
    | _, _ => none

/-- Building one output row (generate_coincidences.py lines 139-148) from
the sorted arrays; any out-of-range access raises. -/
def rawEmit (xs ys zs es ts : List ℚ) (i j : ℕ) : Option RawPair := do
  let x1 ← xs.get? i
  let y1 ← ys.get? i
  let z1 ← zs.get? i
  let x2 ← xs.get? j
  let y2 ← ys.get? j
  let z2 ← zs.get? j
  let t1 ← ts.get? i
  let t2 ← ts.get? j
  let e1 ← es.get? i
  let e2 ← es.get? j
  pure ⟨x1, y1, z1, x2, y2, z2, t1, t2, e1, e2⟩

/-- Outer loop of the raw matcher (generate_coincidences.py lines
129-152), bounds-checked. -/
def rawMatchFrom (xs ys zs es ts angs : List ℚ) (timeWindow minAngleRad pi : ℚ) :
    ℕ → ℕ → (ℕ → Bool) → Option (List RawPair)
  | 0, _, _ => some []
  | remaining + 1, i, used =>
    if used i then
      rawMatchFrom xs ys zs es ts angs timeWindow minAngleRad pi remaining (i + 1) used
    else
      match rawScan ts angs timeWindow minAngleRad pi used i remaining (i + 1) with
      | none => none
      | some none =>
        rawMatchFrom xs ys zs es ts angs timeWindow minAngleRad pi remaining (i + 1) used
      | some (some j) =>
        match rawEmit xs ys zs es ts i j with
        | none => none
        | some pr =>
          match rawMatchFrom xs ys zs es ts angs timeWindow minAngleRad pi remaining (i + 1)
              (markUsed used i j) with
          | none => none
          | some rest => some (pr :: rest)

/-- The full-ring generator on the five raw parallel arrays
(generate_coincidences.py lines 70-152, non-rotating): n_singles is the
length of x (line 76); angles come from the unsorted y and x (line 98);
the window is unit-adjusted from `time.max()` (lines 100-108); all six
arrays are reindexed by `argsort(time)` (lines 113-115); then the greedy
matcher runs with loop bound n_singles.  none = the run raises.  (When
the match count is zero the code returns 0 without writing a table; here
that case is the empty list.) -/
def generate_coincidences (arctan2 : ℚ → ℚ → ℚ) (pi : ℚ)
    (x y z energy time : List ℚ) (timeWindowNs minAngleDeg : ℚ) :
    Option (List RawPair) := do
  let nSingles := x.length
  let angles ← npArctan2 arctan2 y x
  let tmax ← npMax time
  let timeWindow := adjustWindow tmax timeWindowNs
  let minAngleRad := radians pi minAngleDeg
  let sortIdx := argsortIdx time
  let xs ← npTake x sortIdx
  let ys ← npTake y sortIdx
  let zs ← npTake z sortIdx
  let es ← npTake energy sortIdx
  let ts ← npTake time sortIdx
  let angs ← npTake angles sortIdx
  rawMatchFrom xs ys zs es ts angs timeWindow minAngleRad pi nSingles 0 (fun _ => false)

/-
Concrete data used by the witnesses and counterexamples below.  `atanStub`
is one admissible instantiation of the abstract arctan2 parameter (the
general theorems hold for every instantiation, in particular the true
arctan2); it sends the detector at x > 0 to angle 0 and the detector at
x < 0 to angle 2, which together with pi = 3 puts the two witness events
2 radians apart.
-/

/-- A concrete instantiation of the arctan2 parameter for witnesses. -/
def atanStub : ℚ → ℚ → ℚ := fun _ x => if x < 0 then 2 else 0

/-- Witness event on the x > 0 side, at time 0. -/
def evP : Single := ⟨1, 0, 5, 2, 0⟩

/-- Witness event on the x < 0 side, at time 1. -/
def evN : Single := ⟨-1, 0, 6, 2, 1⟩

/-- The six-event stream of the spec's partial-ring example: x<0 events at
times 1, 3, 5 and x>0 events at times 0, 2, 4. -/
def evsStatic : List Single :=
  [⟨-1, 0, 0, 1, 1⟩, ⟨1, 0, 0, 1, 0⟩, ⟨-1, 0, 0, 1, 3⟩,
   ⟨1, 0, 0, 1, 2⟩, ⟨-1, 0, 0, 1, 5⟩, ⟨1, 0, 0, 1, 4⟩]

/-- Witness event for the rotating gate, at x > 0, y = 0, time 0. -/
def evR : Single := ⟨1, 0, 0, 1, 0⟩

/-
Helper lemmas.
-/

/-- npMin returns none exactly on the empty list. -/
theorem npMin_eq_none {l : List ℚ} (h : npMin l = none) : l = [] := by
  cases l with
  | nil => rfl
  | cons a r =>
    exfalso
    rw [npMin] at h
    cases hr : npMin r <;> simp [hr] at h

/-- The value returned by npMin is a lower bound for the list. -/
theorem npMin_le {l : List ℚ} {m : ℚ} (h : npMin l = some m) : ∀ q ∈ l, m ≤ q := by
  induction l generalizing m with
  | nil => simp [npMin] at h
  | cons a r ih =>
    intro q hq
    rw [npMin] at h
    cases hr : npMin r with
    | none =>
      rw [hr] at h
      have ham : a = m := by simpa using h
      have hre : r = [] := npMin_eq_none hr
      subst hre
      have hqa : q = a := by simpa using hq
      rw [hqa, ← ham]
    | some m2 =>
      rw [hr] at h
      have hmm : min a m2 = m := by simpa using h
      rcases List.mem_cons.mp hq with rfl | hqr
      · rw [← hmm]; exact min_le_left _ _
      · exact le_trans (by rw [← hmm]; exact min_le_right _ _) (ih hr q hqr)

/-- A coordinate left false by markUsed was false before and is neither of
the two marked indices. -/
theorem markUsed_eq_false {used : ℕ → Bool} {i j k : ℕ}
    (h : markUsed used i j k = false) : used k = false ∧ k ≠ i ∧ k ≠ j := by
  by_cases hc : k = i ∨ k = j
  · simp [markUsed, hc] at h
  · push_neg at hc
    rw [markUsed, if_neg (by tauto)] at h
    exact ⟨h, hc.1, hc.2⟩

/-- Soundness of the inner scan: a returned partner index lies between the
scan start and the loop bound, is inside the time window relative to i,
is unused, and passes the angular test. -/
theorem scanJ_some {ts angs : List ℚ} {timeWindow minAngleRad pi : ℚ}
    {used : ℕ → Bool} {i : ℕ} :
    ∀ {remaining j k : ℕ},
      scanJ ts angs timeWindow minAngleRad pi used i remaining j = some k →
      j ≤ k ∧ k < j + remaining ∧ ts.getD k 0 - ts.getD i 0 < timeWindow ∧
        used k = false ∧ wrapDiff pi (angs.getD i 0) (angs.getD k 0) > minAngleRad := by
  intro remaining
  induction remaining with
  | zero => intro j k h; simp [scanJ] at h
  | succ r ih =>
    intro j k h
    rw [scanJ] at h
    by_cases hw : ts.getD j 0 - ts.getD i 0 < timeWindow
    · rw [if_pos hw] at h
      by_cases hc : used j = false ∧
          wrapDiff pi (angs.getD i 0) (angs.getD j 0) > minAngleRad
      · rw [if_pos hc] at h
        obtain rfl : j = k := by simpa using h
        exact ⟨le_refl j, by omega, hw, hc.1, hc.2⟩
      · rw [if_neg hc] at h
        obtain ⟨h1, h2, h3, h4, h5⟩ := ih h
        exact ⟨by omega, by omega, h3, h4, h5⟩
    · rw [if_neg hw] at h
      exact absurd h (by simp)

/-- Soundness of the outer loop: every emitted pair (p, q) satisfies
i ≤ p < q < i + remaining, both members were unused when the loop started,
the pair is inside the time window, and it passes the angular test. -/
theorem matchFrom_sound {ts angs : List ℚ} {timeWindow minAngleRad pi : ℚ} :
    ∀ {remaining i : ℕ} {used : ℕ → Bool} {p q : ℕ},
      (p, q) ∈ matchFrom ts angs timeWindow minAngleRad pi remaining i used →
      i ≤ p ∧ p < q ∧ q < i + remaining ∧ used p = false ∧ used q = false ∧
        ts.getD q 0 - ts.getD p 0 < timeWindow ∧
        wrapDiff pi (angs.getD p 0) (angs.getD q 0) > minAngleRad := by
  intro remaining
  induction remaining with
  | zero => intro i used p q h; simp [matchFrom] at h
  | succ r ih =>
    intro i used p q h
    rw [matchFrom] at h
    cases hui : used i with
    | true =>
      rw [hui] at h
      simp only [if_true] at h
      obtain ⟨h1, h2, h3, h4, h5, h6, h7⟩ := ih h
      exact ⟨by omega, h2, by omega, h4, h5, h6, h7⟩
    | false =>
      rw [hui] at h
      simp only [Bool.false_eq_true, if_false] at h
      cases hscan : scanJ ts angs timeWindow minAngleRad pi used i r (i + 1) with
      | some j =>
        rw [hscan] at h
        rcases List.mem_cons.mp h with hhead | htail
        · obtain ⟨rfl, rfl⟩ : p = i ∧ q = j := by
            constructor <;> [exact (Prod.mk.injEq .. ▸ hhead).1; exact (Prod.mk.injEq .. ▸ hhead).2]
          obtain ⟨s1, s2, s3, s4, s5⟩ := scanJ_some hscan
          exact ⟨le_refl p, by omega, by omega, hui, s4, s3, s5⟩
        · obtain ⟨h1, h2, h3, h4, h5, h6, h7⟩ := ih htail
          obtain ⟨h4u, _, _⟩ := markUsed_eq_false h4
          obtain ⟨h5u, _, _⟩ := markUsed_eq_false h5
          exact ⟨by omega, h2, by omega, h4u, h5u, h6, h7⟩
      | none =>
        rw [hscan] at h
        obtain ⟨h1, h2, h3, h4, h5, h6, h7⟩ := ih h
        exact ⟨by omega, h2, by omega, h4, h5, h6, h7⟩

/-- Exclusivity invariant of the outer loop: the flattened list of emitted
member indices has no duplicates, and every emitted index was unused when
the loop started. -/
theorem matchFrom_pairIdx {ts angs : List ℚ} {timeWindow minAngleRad pi : ℚ} :
    ∀ {remaining i : ℕ} {used : ℕ → Bool},
      (pairIdx (matchFrom ts angs timeWindow minAngleRad pi remaining i used)).Nodup ∧
        ∀ k ∈ pairIdx (matchFrom ts angs timeWindow minAngleRad pi remaining i used),
          used k = false := by
  intro remaining
  induction remaining with
  | zero => intro i used; simp [matchFrom, pairIdx]
  | succ r ih =>
    intro i used
    rw [matchFrom]
    cases hui : used i with
    | true =>
      simp only [if_true]
      exact ih
    | false =>
      simp only [Bool.false_eq_true, if_false]
      cases hscan : scanJ ts angs timeWindow minAngleRad pi used i r (i + 1) with
      | none => exact ih
      | some j =>
        obtain ⟨s1, _, _, s4, _⟩ := scanJ_some hscan
        obtain ⟨hnd, hfree⟩ := @ih (i + 1) (markUsed used i j)
        have hfree3 : ∀ k ∈ pairIdx
            (matchFrom ts angs timeWindow minAngleRad pi r (i + 1) (markUsed used i j)),
            used k = false ∧ k ≠ i ∧ k ≠ j :=
          fun k hk => markUsed_eq_false (hfree k hk)
        have hij : i ≠ j := by omega
        constructor
        · rw [pairIdx]
          refine List.nodup_cons.mpr ⟨?_, List.nodup_cons.mpr ⟨?_, hnd⟩⟩
          · intro hmem
            rcases List.mem_cons.mp hmem with h | h
            · exact hij h
            · exact (hfree3 i h).2.1 rfl
          · intro hmem
            exact (hfree3 j hmem).2.2 rfl
        · intro k hk
          rw [pairIdx] at hk
          rcases List.mem_cons.mp hk with rfl | hk
          · exact hui
          · rcases List.mem_cons.mp hk with rfl | hk
            · exact s4
            · exact (hfree3 k hk).1

/-- The first members of the emitted pairs are strictly increasing (the
outer loop index only moves forward). -/
theorem matchFrom_fst_pairwise {ts angs : List ℚ} {timeWindow minAngleRad pi : ℚ} :
    ∀ {remaining i : ℕ} {used : ℕ → Bool},
      ((matchFrom ts angs timeWindow minAngleRad pi remaining i used).map
          Prod.fst).Pairwise (· < ·) := by
  intro remaining
  induction remaining with
  | zero => intro i used; simp [matchFrom]
  | succ r ih =>
    intro i used
    rw [matchFrom]
    cases hui : used i with
    | true => simpa using ih
    | false =>
      simp only [Bool.false_eq_true, if_false]
      cases hscan : scanJ ts angs timeWindow minAngleRad pi used i r (i + 1) with
      | none => exact ih
      | some j =>
        simp only [List.map_cons]
        refine List.pairwise_cons.mpr ⟨?_, ih⟩
        intro b hb
        obtain ⟨pr, hpr, rfl⟩ := List.mem_map.mp hb
        have hmem : (pr.1, pr.2) ∈
            matchFrom ts angs timeWindow minAngleRad pi r (i + 1) (markUsed used i j) := by
          simpa using hpr
        have := (matchFrom_sound hmem).1
        omega

/-- In a list that is pairwise nondecreasing, an earlier in-range position
holds a value at most that of a later in-range position. -/
theorem pairwise_le_getD {l : List ℚ} (h : l.Pairwise (· ≤ ·)) {p q : ℕ}
    (hpq : p < q) (hq : q < l.length) : l.getD p 0 ≤ l.getD q 0 := by
  have hp : p < l.length := hpq.trans hq
  have hg := List.pairwise_iff_get.mp h ⟨p, hp⟩ ⟨q, hq⟩ hpq
  rw [List.getD_eq_getElem?_getD, List.getD_eq_getElem?_getD,
    List.getElem?_eq_getElem hp, List.getElem?_eq_getElem hq]
  simpa [List.get_eq_getElem] using hg

/-- The time array of the sorted stream is pairwise nondecreasing. -/
theorem sorted_times_pairwise (events : List Single) :
    ((sortByTime events).map Single.time).Pairwise (· ≤ ·) := by
  have h1 : List.Sorted timeLE (sortByTime events) :=
    List.sorted_insertionSort timeLE events
  exact List.pairwise_map.mpr h1

/-
Claim theorems.
-/

/-- C2: in full-ring mode, for every input stream and parameters, no event
index appears as a member of more than one emitted pair, and the two
members of every emitted pair are distinct.  Both statements are captured
by the flattened list of all member indices having no duplicates (the two
members of one pair are adjacent entries of that list). -/
theorem fullRing_exclusive (arctan2 : ℚ → ℚ → ℚ) (pi : ℚ) (events : List Single)
    (timeWindowNs minAngleDeg : ℚ) :
    (pairIdx (fullRingPairs arctan2 pi events timeWindowNs minAngleDeg)).Nodup := by
  unfold fullRingPairs
  cases npMax (events.map Single.time) with
  | none => simp [pairIdx]
  | some tmax =>
    simp only [matchPairs]
    exact matchFrom_pairIdx.1

/-- C3: for every pair emitted by the full-ring matcher, the absolute
difference of the two member timestamps is strictly below the time window
(the nanosecond parameter after the matcher's unit adjustment, which is
the window against which the code compares raw time differences). -/
theorem fullRing_window_bound (arctan2 : ℚ → ℚ → ℚ) (pi : ℚ) (events : List Single)
    (timeWindowNs minAngleDeg tmax : ℚ)
    (hmax : npMax (events.map Single.time) = some tmax)
    (p q : ℕ)
    (hmem : (p, q) ∈ fullRingPairs arctan2 pi events timeWindowNs minAngleDeg) :
    |((sortByTime events).map Single.time).getD q 0 -
        ((sortByTime events).map Single.time).getD p 0| <
      adjustWindow tmax timeWindowNs := by
  unfold fullRingPairs at hmem
  rw [hmax] at hmem
  simp only [matchPairs] at hmem
  obtain ⟨_, hpq, hqn, _, _, hwin, _⟩ := matchFrom_sound hmem
  have hqlen : q < ((sortByTime events).map Single.time).length := by
    simpa using hqn
  have hle := pairwise_le_getD (sorted_times_pairwise events) hpq hqlen
  rw [abs_of_nonneg (sub_nonneg.mpr hle)]
  exact hwin

/-- C3 witness: a concrete two-event run in which the pair (0, 1) is
emitted and its raw time difference 1 is below the adjusted window 10. -/
theorem fullRing_window_bound_witness :
    |((sortByTime [evP, evN]).map Single.time).getD 1 0 -
        ((sortByTime [evP, evN]).map Single.time).getD 0 0| <
      adjustWindow 1 (10 ^ 10) :=
  fullRing_window_bound atanStub 3 [evP, evN] (10 ^ 10) 60 1
    (by with_unfolding_all decide) 0 1 (by with_unfolding_all decide)

/-- C4: for every pair emitted by the full-ring matcher, the wrapped
(shortest-arc) separation of the two members' angles is strictly greater
than min_angle_rad = radians(min_angle_deg), where each member's angle is
the unshifted arctan2(y, x) of its coordinates (not the classifier's
shifted sector angle) and the separation |ai - aj| is replaced by
2π - |ai - aj| when it exceeds π (this is `wrapDiff`). -/
theorem fullRing_angle_bound (arctan2 : ℚ → ℚ → ℚ) (pi : ℚ) (events : List Single)
    (timeWindowNs minAngleDeg : ℚ) (p q : ℕ)
    (hmem : (p, q) ∈ fullRingPairs arctan2 pi events timeWindowNs minAngleDeg) :
    wrapDiff pi (((sortByTime events).map fun e => arctan2 e.y e.x).getD p 0)
        (((sortByTime events).map fun e => arctan2 e.y e.x).getD q 0) >
      radians pi minAngleDeg := by
  unfold fullRingPairs at hmem
  cases hmax : npMax (events.map Single.time) with
  | none => rw [hmax] at hmem; simp at hmem
  | some tmax =>
    rw [hmax] at hmem
    simp only [matchPairs] at hmem
    exact (matchFrom_sound hmem).2.2.2.2.2.2

/-- C4 witness: in the concrete two-event run the emitted pair (0, 1) has
wrapped angular separation 2, above radians(60) = 1 for pi = 3. -/
theorem fullRing_angle_bound_witness :
    wrapDiff 3 (((sortByTime [evP, evN]).map fun e => atanStub e.y e.x).getD 0 0)
        (((sortByTime [evP, evN]).map fun e => atanStub e.y e.x).getD 1 0) >
      radians 3 60 :=
  fullRing_angle_bound atanStub 3 [evP, evN] (10 ^ 10) 60 0 1
    (by with_unfolding_all decide)

/-- C8: in full-ring mode the emitted list is ordered by the timestamp of
the earlier (i) member: the sequence of time1 values is nondecreasing, for
every input stream and parameters. -/
theorem fullRing_output_ordered (arctan2 : ℚ → ℚ → ℚ) (pi : ℚ) (events : List Single)
    (timeWindowNs minAngleDeg : ℚ) :
    ((fullRingPairs arctan2 pi events timeWindowNs minAngleDeg).map
        (fun pr => ((sortByTime events).map Single.time).getD pr.1 0)).Pairwise (· ≤ ·) := by
  unfold fullRingPairs
  cases npMax (events.map Single.time) with
  | none => simp
  | some tmax =>
    simp only [matchPairs]
    have hfst : ((matchFrom ((sortByTime events).map Single.time)
        ((sortByTime events).map fun e => arctan2 e.y e.x)
        (adjustWindow tmax timeWindowNs) (radians pi minAngleDeg) pi
        ((sortByTime events).map Single.time).length 0 (fun _ => false)).map
          Prod.fst).Pairwise (· < ·) := matchFrom_fst_pairwise
    have hp : (matchFrom ((sortByTime events).map Single.time)
        ((sortByTime events).map fun e => arctan2 e.y e.x)
        (adjustWindow tmax timeWindowNs) (radians pi minAngleDeg) pi
        ((sortByTime events).map Single.time).length 0 (fun _ => false)).Pairwise
          (fun a b => a.1 < b.1) := List.pairwise_map.mp hfst
    rw [List.pairwise_map]
    refine hp.imp_of_mem ?_
    intro a b ha hb hab
    have hbmem : (b.1, b.2) ∈ matchFrom ((sortByTime events).map Single.time)
        ((sortByTime events).map fun e => arctan2 e.y e.x)
        (adjustWindow tmax timeWindowNs) (radians pi minAngleDeg) pi
        ((sortByTime events).map Single.time).length 0 (fun _ => false) := by simpa using hb
    obtain ⟨_, hb12, hb2n, _, _, _, _⟩ := matchFrom_sound hbmem
    exact pairwise_le_getD (sorted_times_pairwise events) hab (by omega)

/-- C6: the spec says an empty input is not an error, but the code calls
numpy `.max()` (full-ring, generate_coincidences.py line 101) and
`.min()` (rotating gate, filter_rotating.py line 89) on the empty time
array, both of which raise ValueError; both runs therefore abort instead
of reporting zero coincidences / 0% retained. -/
theorem empty_input_raises (arctan2 : ℚ → ℚ → ℚ)
    (pi speed timeWindowNs minAngleDeg : ℚ) (nModules : ℕ) :
    fullRingRun arctan2 pi [] timeWindowNs minAngleDeg = none ∧
      filter_singles_rotating arctan2 pi [] speed nModules = none :=
  ⟨rfl, rfl⟩

/-- C1 counterexample: for a stream with maximum raw timestamp 1e8 the
matcher keeps the window in nanoseconds (its 1e6 threshold fires), whereas
the claimed mirror of the ingestion heuristic (thresholds 1e12/1e9) would
declare the data to be in seconds and scale the window by 1e-9. -/
theorem window_heuristic_not_mirrored :
    adjustWindow 100000000 1 ≠ mirroredWindowHeuristic 100000000 1 := by
  with_unfolding_all decide

/-- C1 amended: the matcher's window heuristic does not reuse the ingestion
thresholds 1e12/1e9; its branches are >1e12 (×1e3, picoseconds),
>1e6 (×1, nanoseconds), >1e3 (×1e-3, microseconds), else ×1e-9 (seconds).
It agrees with the claimed mirror of §4.1 exactly when the maximum raw
timestamp exceeds 1e9 or is at most 1e3. -/
theorem window_heuristic_mirror_agreement (tmax w : ℚ)
    (h : 1000000000 < tmax ∨ tmax ≤ 1000) :
    adjustWindow tmax w = mirroredWindowHeuristic tmax w := by
  unfold adjustWindow mirroredWindowHeuristic
  rcases h with h | h
  · split_ifs <;> first | rfl | linarith
  · split_ifs <;> first | rfl | linarith

/-- C1 witness: at tmax = 2e9 (above 1e9) both heuristics keep the window
in nanoseconds. -/
theorem window_heuristic_mirror_agreement_witness :
    adjustWindow 2000000000 7 = mirroredWindowHeuristic 2000000000 7 :=
  window_heuristic_mirror_agreement 2000000000 7 (Or.inl (by norm_num))

/-- C7: on the spec's example stream (x<0 events at times 1, 3, 5 and x>0
events at times 0, 2, 4) the static two-module matcher emits exactly the
three pairs (1↔0), (3↔2), (5↔4); the pointer walks forward only, and the
definition applies no time-window and no angular filter (it never consults
angles at all). -/
theorem static_ring_example :
    (generate_coincidences_static_ring evsStatic).map
        (fun pr => (pr.1.2.time, pr.2.2.time)) = [(1, 0), (3, 2), (5, 4)] := by
  with_unfolding_all decide

/-- C9 counterexample: an input whose z array is longer than the other four
arrays is a length mismatch, yet the run completes and produces an output
table (one coincidence row) instead of aborting: the reindexing step
z[sort_idx] silently truncates z to the common length.  There is no
IngestionError anywhere in the code. -/
theorem length_mismatch_completes :
    generate_coincidences atanStub 3 [1, -1] [0, 0] [5, 6, 7] [2, 2] [0, 1] (10 ^ 10) 60 =
        some [⟨1, 0, 5, -1, 0, 6, 0, 1, 2, 2⟩] ∧
      [(5 : ℚ), 6, 7].length ≠ [(1 : ℚ), -1].length := by
  with_unfolding_all decide

/-- C9 amended: no length validation is performed and no IngestionError
exists; a mismatched z array that is longer than the others is silently
truncated by the argsort reindexing and the run completes normally,
emitting a table whose z columns contain only the first entries of z. -/
theorem length_mismatch_truncates_z :
    (generate_coincidences atanStub 3 [1, -1] [0, 0] [5, 6, 7] [2, 2] [0, 1] (10 ^ 10) 60).map
        (List.map fun pr => (pr.z1, pr.z2)) = some [(5, 6)] := by
  with_unfolding_all decide

/-- Truncation toward zero agrees with the floor on nonnegative values. -/
theorem npTruncInt_eq_floor {q : ℚ} (h : 0 ≤ q) : npTruncInt q = ⌊q⌋ :=
  if_pos h

/-- C5: every event retained by the rotating gate has
sector = floor((arctan2(y,x)+π)/(2π)·n_modules) mod n_modules equal to
active_a or active_b = active_a + n_modules/2 evaluated at the event's own
timestamp, where active_a = floor(speed·(t - t_min)/sector_width) mod
(n_modules/2) and times are rescaled to seconds when the maximum raw
timestamp exceeds 1e12 or 1e9.  The hypotheses 0 < π, arctan2 ≥ -π and
0 ≤ speed hold for numpy's π and arctan2 and the caller's speed 90; they
make the code's truncation toward zero (`astype(int)`) coincide with the
claim's floor. -/
theorem rotating_gate_sector_correct
    (arctan2 : ℚ → ℚ → ℚ) (pi : ℚ) (events : List Single) (speed : ℚ) (nModules : ℕ)
    (hpi : 0 < pi) (harctan : ∀ y x : ℚ, -pi ≤ arctan2 y x) (hspeed : 0 ≤ speed)
    (tmin tmax : ℚ)
    (hmin : npMin (events.map Single.time) = some tmin)
    (hmax : npMax (events.map Single.time) = some tmax)
    (out : List Single)
    (hrun : filter_singles_rotating arctan2 pi events speed nModules = some out)
    (e : Single) (he : e ∈ out) :
    ⌊(arctan2 e.y e.x + pi) / (2 * pi) * nModules⌋ % (nModules : ℤ) =
        ⌊speed * ((e.time - tmin) /
              (if tmax > 1000000000000 then 1000000000000
               else if tmax > 1000000000 then 1000000000 else 1)) /
            ((360 : ℚ) / nModules)⌋ % ((nModules / 2 : ℕ) : ℤ) ∨
      ⌊(arctan2 e.y e.x + pi) / (2 * pi) * nModules⌋ % (nModules : ℤ) =
        ⌊speed * ((e.time - tmin) /
              (if tmax > 1000000000000 then 1000000000000
               else if tmax > 1000000000 then 1000000000 else 1)) /
            ((360 : ℚ) / nModules)⌋ % ((nModules / 2 : ℕ) : ℤ) + ((nModules / 2 : ℕ) : ℤ) := by
  unfold filter_singles_rotating at hrun
  simp only [hmin, hmax, Option.some.injEq] at hrun
  subst hrun
  obtain ⟨hev, hpred⟩ := List.mem_filter.mp he
  simp only [get_module_id, Bool.or_eq_true, beq_iff_eq] at hpred
  have htm : tmin ≤ e.time := npMin_le hmin _ (List.mem_map_of_mem Single.time hev)
  have hsc : (0 : ℚ) < (if tmax > 1000000000000 then 1000000000000
      else if tmax > 1000000000 then 1000000000 else 1) := by
    split_ifs <;> norm_num
  have hA : 0 ≤ (arctan2 e.y e.x + pi) / (2 * pi) * nModules := by
    have h1 : 0 ≤ arctan2 e.y e.x + pi := by
      have := harctan e.y e.x
      linarith
    have h2 : (0 : ℚ) < 2 * pi := by linarith
    exact mul_nonneg (div_nonneg h1 h2.le) (Nat.cast_nonneg _)
  have hB : 0 ≤ speed * ((e.time - tmin) /
      (if tmax > 1000000000000 then 1000000000000
       else if tmax > 1000000000 then 1000000000 else 1)) / ((360 : ℚ) / nModules) := by
    have h3 : 0 ≤ e.time - tmin := sub_nonneg.mpr htm
    exact div_nonneg (mul_nonneg hspeed (div_nonneg h3 hsc.le))
      (div_nonneg (by norm_num) (Nat.cast_nonneg _))
  rw [npTruncInt_eq_floor hA, npTruncInt_eq_floor hB] at hpred
  exact hpred

/-- C5 witness: with arctan2 instantiated to the constant 0, pi = 3, one
event at (x, y) = (1, 0) and time 0, speed 90 and 18 modules, the event is
retained and its sector 9 equals active_b = 0 + 9. -/
theorem rotating_gate_sector_correct_witness :
    ⌊((0 : ℚ) + 3) / (2 * 3) * ((18 : ℕ) : ℚ)⌋ % ((18 : ℕ) : ℤ) =
        ⌊(90 : ℚ) * (((0 : ℚ) - 0) /
              (if (0 : ℚ) > 1000000000000 then 1000000000000
               else if (0 : ℚ) > 1000000000 then 1000000000 else 1)) /
            ((360 : ℚ) / ((18 : ℕ) : ℚ))⌋ % ((18 / 2 : ℕ) : ℤ) ∨
      ⌊((0 : ℚ) + 3) / (2 * 3) * ((18 : ℕ) : ℚ)⌋ % ((18 : ℕ) : ℤ) =
        ⌊(90 : ℚ) * (((0 : ℚ) - 0) /
              (if (0 : ℚ) > 1000000000000 then 1000000000000
               else if (0 : ℚ) > 1000000000 then 1000000000 else 1)) /
            ((360 : ℚ) / ((18 : ℕ) : ℚ))⌋ % ((18 / 2 : ℕ) : ℤ) + ((18 / 2 : ℕ) : ℤ) :=
  rotating_gate_sector_correct (fun _ _ => 0) 3 [evR] 90 18 (by norm_num)
    (fun y x => by norm_num) (by norm_num) 0 0
    (by with_unfolding_all decide) (by with_unfolding_all decide)
    [evR] (by with_unfolding_all decide) evR (by with_unfolding_all decide)

/-- The pointer never moves backward. -/
theorem advancePtr_ge (s2 : List (ℕ × Single)) (t : ℚ) :
    ∀ remaining j, j ≤ advancePtr s2 t remaining j := by
  intro remaining
  induction remaining with
  | zero => intro j; rw [advancePtr]
  | succ r ih =>
    intro j
    rw [advancePtr]
    split_ifs with hc
    · exact le_trans (Nat.le_succ j) (ih (j + 1))
    · exact le_refl j

/-- The pointer advances at most `remaining` steps. -/
theorem advancePtr_le (s2 : List (ℕ × Single)) (t : ℚ) :
    ∀ remaining j, advancePtr s2 t remaining j ≤ j + remaining := by
  intro remaining
  induction remaining with
  | zero => intro j; rw [advancePtr]; omega
  | succ r ih =>
    intro j
    rw [advancePtr]
    split_ifs with hc
    · exact le_trans (ih (j + 1)) (by omega)
    · omega

/-- The x<0 members of the emitted static-ring pairs form a sublist of the
x<0 side (each side event is consumed at most once, in order). -/
theorem staticPairLoop_fst_sublist (s2 : List (ℕ × Single)) :
    ∀ (l : List (ℕ × Single)) (j : ℕ),
      ((staticPairLoop s2 l j).map (fun pr => pr.1)).Sublist l := by
  intro l
  induction l with
  | nil => intro j; simp [staticPairLoop]
  | cons e rest ih =>
    intro j
    rw [staticPairLoop]
    split_ifs with hb
    · simp
    · simpa using List.Sublist.cons₂ e (ih _)

/-- The x>0 members of the emitted static-ring pairs are read off the x>0
side at strictly increasing in-range positions. -/
theorem staticPairLoop_snd_spec (s2 : List (ℕ × Single)) :
    ∀ (l : List (ℕ × Single)) (j : ℕ), ∃ ms : List ℕ,
      (staticPairLoop s2 l j).map (fun pr => pr.2) =
          ms.map (fun m => s2.getD m default) ∧
        ms.Pairwise (· < ·) ∧ ∀ m ∈ ms, j ≤ m ∧ m < s2.length := by
  intro l
  induction l with
  | nil => intro j; exact ⟨[], by simp [staticPairLoop], by simp, by simp⟩
  | cons e rest ih =>
    intro j
    rw [staticPairLoop]
    split_ifs with hb
    · exact ⟨[], by simp, by simp, by simp⟩
    · push_neg at hb
      obtain ⟨ms, hmap, hpw, hbnd⟩ := ih (advancePtr s2 e.2.time (s2.length - 1 - j) j + 1)
      refine ⟨advancePtr s2 e.2.time (s2.length - 1 - j) j :: ms, ?_, ?_, ?_⟩
      · simp [hmap]
      · refine List.pairwise_cons.mpr ⟨?_, hpw⟩
        intro m hm
        have := (hbnd m hm).1
        omega
      · intro m hm
        have hge := advancePtr_ge s2 e.2.time (s2.length - 1 - j) j
        have hle := advancePtr_le s2 e.2.time (s2.length - 1 - j) j
        rcases List.mem_cons.mp hm with rfl | hm2
        · omega
        · have := hbnd m hm2
          omega

/-- Distinct in-range positions of a list with duplicate-free first
components hold entries with distinct first components. -/
theorem getD_fst_ne {s2 : List (ℕ × Single)} (h : (s2.map Prod.fst).Nodup) {a b : ℕ}
    (ha : a < s2.length) (hb : b < s2.length) (hab : a ≠ b) :
    (s2.getD a default).1 ≠ (s2.getD b default).1 := by
  have ha' : a < (s2.map Prod.fst).length := by simpa using ha
  have hb' : b < (s2.map Prod.fst).length := by simpa using hb
  intro hcon
  have hg : (s2.map Prod.fst).get ⟨a, ha'⟩ = (s2.map Prod.fst).get ⟨b, hb'⟩ := by
    simp only [List.get_eq_getElem, List.getElem_map]
    rw [← List.getD_eq_getElem s2 default ha, ← List.getD_eq_getElem s2 default hb]
    exact hcon
  have hfin := (h.get_inj_iff).mp hg
  exact hab (by simpa using hfin)

/-- The stream-position tags of a sign-filtered, time-sorted side are
duplicate-free. -/
theorem sideTags_nodup (events : List Single) (p : ℕ × Single → Bool) :
    ((sortTagged ((events.enum).filter p)).map Prod.fst).Nodup := by
  have h0 : ((events.enum).map Prod.fst).Nodup := by
    rw [List.enum_map_fst]
    exact List.nodup_range _
  have h1 : (((events.enum).filter p).map Prod.fst).Nodup :=
    ((List.filter_sublist _).map Prod.fst).nodup h0
  have h2 : ((sortTagged ((events.enum).filter p)).map Prod.fst).Perm
      ((((events.enum).filter p)).map Prod.fst) :=
    (List.perm_insertionSort tagTimeLE _).map Prod.fst
  exact h2.nodup_iff.mpr h1

/-- Membership in a sorted filtered side comes from the tagged stream and
satisfies the side predicate. -/
theorem mem_sortTagged_filter {events : List Single} {p : ℕ × Single → Bool}
    {pr : ℕ × Single} (h : pr ∈ sortTagged ((events.enum).filter p)) :
    pr ∈ events.enum ∧ p pr = true := by
  have h1 : pr ∈ (events.enum).filter p :=
    (List.perm_insertionSort tagTimeLE _).mem_iff.mp h
  exact List.mem_filter.mp h1

/-- A stream position cannot carry an x<0 event and an x>0 event at once,
so the tag sets of the two sides are disjoint. -/
theorem sideTags_disjoint {events : List Single} {k : ℕ}
    (h1 : k ∈ (sortTagged ((events.enum).filter fun pr => decide (pr.2.x < 0))).map Prod.fst)
    (h2 : k ∈ (sortTagged ((events.enum).filter fun pr => decide (pr.2.x > 0))).map Prod.fst) :
    False := by
  obtain ⟨a, hamem, hak⟩ := List.mem_map.mp h1
  obtain ⟨b, hbmem, hbk⟩ := List.mem_map.mp h2
  obtain ⟨haen, hax⟩ := mem_sortTagged_filter hamem
  obtain ⟨hben, hbx⟩ := mem_sortTagged_filter hbmem
  have hae : events[a.1]? = some a.2 := List.mem_enum_iff_getElem?.mp haen
  have hbe : events[b.1]? = some b.2 := List.mem_enum_iff_getElem?.mp hben
  rw [hak] at hae
  rw [hbk] at hbe
  rw [hae] at hbe
  have hab : a.2 = b.2 := Option.some.inj hbe
  have hax2 : a.2.x < 0 := of_decide_eq_true hax
  have hbx2 : b.2.x > 0 := of_decide_eq_true hbx
  rw [hab] at hax2
  linarith

/-- An index occurs in the flattened pair list iff it occurs as a first or
second member. -/
theorem pairIdx_mem {L : List (ℕ × ℕ)} {k : ℕ} :
    k ∈ pairIdx L ↔ k ∈ L.map Prod.fst ∨ k ∈ L.map Prod.snd := by
  induction L with
  | nil => simp [pairIdx]
  | cons pr r ih =>
    obtain ⟨p, q⟩ := pr
    rw [pairIdx]
    simp only [List.map_cons, List.mem_cons, ih]
    tauto

/-- If the first members are duplicate-free, the second members are
duplicate-free, and no index is both a first and a second member, then the
flattened pair list is duplicate-free. -/
theorem pairIdx_nodup {L : List (ℕ × ℕ)} (h1 : (L.map Prod.fst).Nodup)
    (h2 : (L.map Prod.snd).Nodup)
    (h3 : ∀ k, k ∈ L.map Prod.fst → k ∈ L.map Prod.snd → False) :
    (pairIdx L).Nodup := by
  induction L with
  | nil => simp [pairIdx]
  | cons pr r ih =>
    obtain ⟨p, q⟩ := pr
    simp only [List.map_cons] at h1 h2
    have h1x := List.nodup_cons.mp h1
    have h2x := List.nodup_cons.mp h2
    rw [pairIdx]
    refine List.nodup_cons.mpr ⟨?_, List.nodup_cons.mpr ⟨?_, ?_⟩⟩
    · intro hp
      rcases List.mem_cons.mp hp with rfl | hp2
      · exact h3 p (by simp) (by simp)
      · rcases pairIdx_mem.mp hp2 with hf | hs
        · exact h1x.1 hf
        · exact h3 p (by simp) (by simp [hs])
    · intro hq
      rcases pairIdx_mem.mp hq with hf | hs
      · exact h3 q (by simp [hf]) (by simp)
      · exact h2x.1 hs
    · exact ih h1x.2 h2x.2 (fun k hkf hks => h3 k (by simp [hkf]) (by simp [hks]))

/-- C10: in partial-ring (static two-module) mode, no event appears in more
than one emitted pair: the x<0 members are pairwise distinct stream
positions, the x>0 members are read at strictly increasing positions of
the x>0 side, and the two sides are disjoint.  As in C2 this is stated as
the flattened list of stream-position tags having no duplicates, which
also forces the two members of each pair to differ. -/
theorem static_ring_exclusive (events : List Single) :
    (pairIdx ((generate_coincidences_static_ring events).map
        (fun pr => (pr.1.1, pr.2.1)))).Nodup := by
  simp only [generate_coincidences_static_ring]
  apply pairIdx_nodup
  · -- first members: a sublist of the x<0 side's duplicate-free tags
    refine List.Sublist.nodup ?_
      (sideTags_nodup events (fun pr => decide (pr.2.x < 0)))
    have h := (staticPairLoop_fst_sublist
        (sortTagged ((events.enum).filter fun pr => decide (pr.2.x > 0)))
        (sortTagged ((events.enum).filter fun pr => decide (pr.2.x < 0))) 0).map Prod.fst
    simpa [List.map_map] using h
  · -- second members: strictly increasing positions into the x>0 side
    obtain ⟨ms, hmap, hpw, hbnd⟩ := staticPairLoop_snd_spec
      (sortTagged ((events.enum).filter fun pr => decide (pr.2.x > 0)))
      (sortTagged ((events.enum).filter fun pr => decide (pr.2.x < 0))) 0
    have hms : ms.Nodup := hpw.imp (fun h => Nat.ne_of_lt h)
    have hmapped : ((staticPairLoop
        (sortTagged ((events.enum).filter fun pr => decide (pr.2.x > 0)))
        (sortTagged ((events.enum).filter fun pr => decide (pr.2.x < 0))) 0).map
          (fun pr => (pr.1.1, pr.2.1))).map Prod.snd =
        ms.map (fun m => ((sortTagged
          ((events.enum).filter fun pr => decide (pr.2.x > 0))).getD m default).1) := by
      have h2 := congrArg (List.map Prod.fst) hmap
      simpa [List.map_map] using h2
    rw [hmapped]
    refine List.Nodup.map_on ?_ hms
    intro a ha b hb hab
    by_contra hne
    exact getD_fst_ne (sideTags_nodup events (fun pr => decide (pr.2.x > 0)))
      (hbnd a ha).2 (hbnd b hb).2 hne hab
  · -- no tag is both an x<0 member and an x>0 member
    intro k hkf hks
    have hkf2 : k ∈ (staticPairLoop
        (sortTagged ((events.enum).filter fun pr => decide (pr.2.x > 0)))
        (sortTagged ((events.enum).filter fun pr => decide (pr.2.x < 0))) 0).map
          (fun pr => pr.1.1) := by
      simpa [List.map_map] using hkf
    have hks2 : k ∈ (staticPairLoop
        (sortTagged ((events.enum).filter fun pr => decide (pr.2.x > 0)))
        (sortTagged ((events.enum).filter fun pr => decide (pr.2.x < 0))) 0).map
          (fun pr => pr.2.1) := by
      simpa [List.map_map] using hks
    obtain ⟨pra, hpra, hprak⟩ := List.mem_map.mp hkf2
    obtain ⟨prb, hprb, hprbk⟩ := List.mem_map.mp hks2
    have h1 : pra.1 ∈ sortTagged ((events.enum).filter fun pr => decide (pr.2.x < 0)) :=
      (staticPairLoop_fst_sublist _ _ 0).subset
        (List.mem_map_of_mem (fun pr => pr.1) hpra)
    obtain ⟨ms, hmap, hpw, hbnd⟩ := staticPairLoop_snd_spec
      (sortTagged ((events.enum).filter fun pr => decide (pr.2.x > 0)))
      (sortTagged ((events.enum).filter fun pr => decide (pr.2.x < 0))) 0
    have h2mem : prb.2 ∈ (staticPairLoop
        (sortTagged ((events.enum).filter fun pr => decide (pr.2.x > 0)))
        (sortTagged ((events.enum).filter fun pr => decide (pr.2.x < 0))) 0).map
          (fun pr => pr.2) := List.mem_map_of_mem (fun pr => pr.2) hprb
    rw [hmap] at h2mem
    obtain ⟨m, hm, hmeq⟩ := List.mem_map.mp h2mem
    have hmlen := (hbnd m hm).2
    have h2 : prb.2 ∈ sortTagged ((events.enum).filter fun pr => decide (pr.2.x > 0)) := by
      rw [← hmeq, List.getD_eq_getElem _ _ hmlen]
      exact List.getElem_mem hmlen
    exact sideTags_disjoint
      (hprak ▸ List.mem_map_of_mem Prod.fst h1)
      (hprbk ▸ List.mem_map_of_mem Prod.fst h2)
